import Mathlib

/-!
Verification of the task-cli task-store engine (src/root.go) against its
natural-language specification.

The Go program stores tasks in boltdb buckets keyed by 8-byte big-endian
encoded integers.  We embed the engine shallowly:

* a bolt bucket is a list of key/value entries kept in ascending key order
  together with its auto-increment sequence counter;
* the store holds the two collections `tasks` and `archive` as optional
  buckets (`none` models a bucket that does not exist);
* keys are carried as `Nat` in the store model; the byte codec `itob`/`btoi`
  is embedded separately and proved to be an order isomorphism (claim C4),
  which justifies carrying decoded keys;
* operations that can terminate the process (`os.Exit` on a missing bucket
  or key, or the nil-bucket dereference panic in `getTasks`) return
  `Option`, with `none` modelling "the process dies"; operations that
  return Go errors return `Except`.  A bolt `db.Update` whose callback
  returns an error rolls the transaction back, so an erroring operation
  leaves the store unchanged;
* `time.Now().Format(RFC3339)` results are threaded in as explicit string
  parameters (they are always non-empty strings in Go).
-/

namespace TaskCLI

/-- Go struct `TaskStatus` (src/root.go). -/
structure TaskStatus where
  COMPLETE : String
  INCOMPLETE : String
  deriving DecidableEq, Repr

/-- `var STATUS = TaskStatus{"complete", "incomplete"}` -/
def STATUS : TaskStatus := { COMPLETE := "complete", INCOMPLETE := "incomplete" }

/-- Go struct `Task`: Desc, Status, Created, Completed, Tag.  The JSON
serialization round-trips (`bToTask ∘ json.Marshal` is the identity), so
bucket values are carried as `Task` directly. -/
structure Task where
  desc : String
  status : String
  created : String
  completed : String
  tag : String
  deriving DecidableEq, Repr

/-- Go struct `TaskPosition`: a task together with its db key. -/
structure TaskPosition where
  task : Task
  dbKey : Nat
  deriving DecidableEq, Repr

/-! ## The codec: `itob` / `btoi` (src/root.go lines 857-866)

`itob` is `binary.BigEndian.PutUint64(b, uint64(v))` on an 8-byte slice;
`btoi` is `int(binary.BigEndian.Uint64(b))`.  Bytes are modelled as `Nat`
below 256.  The Go cast `uint64(v)` on a non-negative `int` is `v % 2^64`
(a no-op for `v < 2^63`); the Go cast `int(u)` wraps values at `2^63`. -/

/-- `itob`: the 8 big-endian base-256 digits of `uint64(v)`.
`b[i] = byte(v >> (56 - 8*i))`. -/
def itob (v : Nat) : List Nat :=
  let u := v % 2 ^ 64
  [u / 2 ^ 56 % 256, u / 2 ^ 48 % 256, u / 2 ^ 40 % 256, u / 2 ^ 32 % 256,
   u / 2 ^ 24 % 256, u / 2 ^ 16 % 256, u / 2 ^ 8 % 256, u % 256]

/-- `binary.BigEndian.Uint64`: big-endian value of a byte slice. -/
def beUint64 (b : List Nat) : Nat :=
  b.foldl (fun acc x => acc * 256 + x) 0

/-- The Go cast `int(u)` for `u : uint64`: two's-complement wrap at `2^63`. -/
def intOfUint64 (u : Nat) : Int :=
  if u < 2 ^ 63 then (u : Int) else (u : Int) - 2 ^ 64

/-- `btoi`: `int(binary.BigEndian.Uint64(b))`. -/
def btoi (b : List Nat) : Int :=
  intOfUint64 (beUint64 b)

/-- Byte-lexicographic strict comparison of byte slices (`bytes.Compare < 0`). -/
def bytesLt : List Nat → List Nat → Bool
  | [], [] => false
  | [], _ :: _ => true
  | _ :: _, [] => false
  | a :: as, b :: bs => if a < b then true else if b < a then false else bytesLt as bs

/-! ## Buckets

A bolt bucket iterates its keys in byte order, which by C4 is numeric key
order, so a bucket is a key-sorted entry list plus the `Sequence` counter. -/

/-- The key/value entries of a bucket, in ascending key order. -/
abbrev Entries := List (Nat × Task)

/-- bolt `Bucket.Put`: insert at the key-ordered position, overwriting an
existing entry with the same key. -/
def putEntries : Entries → Nat → Task → Entries
  | [], k, v => [(k, v)]
  | e :: rest, k, v =>
    if k < e.1 then (k, v) :: e :: rest
    else if k = e.1 then (k, v) :: rest
    else e :: putEntries rest k v

/-- bolt `Bucket.Delete`: removes the entry with the given key; deleting a
key that does not exist is a no-op (bolt returns a nil error). -/
def delEntries (l : Entries) (k : Nat) : Entries :=
  l.filter (fun e => e.1 ≠ k)

/-- bolt `Bucket.Get`: `none` models the nil slice for a missing key. -/
def lookupEntries : Entries → Nat → Option Task
  | [], _ => none
  | e :: rest, k => if e.1 = k then some e.2 else lookupEntries rest k

/-- A bolt bucket: entries in ascending key order plus the auto-increment
sequence counter backing `NextSequence`/`SetSequence`. -/
structure Bucket where
  entries : Entries
  seq : Nat
  deriving DecidableEq, Repr

/-- A freshly created bucket (`CreateBucket`): no entries, sequence 0. -/
def emptyBucket : Bucket := { entries := [], seq := 0 }

/-- The recurring Go pattern `k, _ := b.NextSequence(); b.Put(itob(int(k)), v)`:
bump the sequence and put under the new value. -/
def seqPut (b : Bucket) (t : Task) : Bucket :=
  { entries := putEntries b.entries (b.seq + 1) t, seq := b.seq + 1 }

/-- `renumberEntires` (src/root.go lines 840-854): walk the entries, deleting
each key and re-putting its value under keys 1, 2, ..., then
`SetSequence(idx)`.  The bolt cursor loop is modelled by folding over a
snapshot of the entries while `Delete`/`Put` act on the evolving entry
list, which matches the observed behaviour of the Go loop (each `Put` key
is at most the key the cursor sits on, so the forward walk is undisturbed). -/
def renumberEntires (b : Bucket) : Bucket :=
  let p := b.entries.foldl
    (fun (acc : Nat × Entries) kv =>
      (acc.1 + 1, putEntries (delEntries acc.2 kv.1) (acc.1 + 1) kv.2))
    (0, b.entries)
  { entries := p.2, seq := p.1 }

/-! ## The store -/

/-- The two collection names, `TASKS_BUCKET` and `ARCHIVE_BUCKET`. -/
inductive Coll where
  | tasks
  | archive
  deriving DecidableEq, Repr

/-- The collection name as a string (for error messages). -/
def collName : Coll → String
  | .tasks => "tasks"
  | .archive => "archive"

/-- The database: each of the two buckets, or `none` when it does not exist
(`tx.Bucket` returns nil). -/
structure Store where
  tasks : Option Bucket
  archive : Option Bucket
  deriving DecidableEq, Repr

/-- `tx.Bucket(bucket)` for the given collection name. -/
def Store.getB (st : Store) : Coll → Option Bucket
  | .tasks => st.tasks
  | .archive => st.archive

/-- Replace one collection's bucket. -/
def Store.setB (st : Store) : Coll → Option Bucket → Store
  | .tasks, b => { st with tasks := b }
  | .archive, b => { st with archive := b }

/-- The store right after `main` runs `CreateBucketIfNotExists` on both
collections (src/main.go): both buckets exist and are empty. -/
def initStore : Store := { tasks := some emptyBucket, archive := some emptyBucket }

/-! ## Store operations (src/root.go) -/

/-- `insert` (lines 560-588): `CreateBucketIfNotExists`, `NextSequence`,
build the Task (status INCOMPLETE, `Completed` empty, `Created` stamped)
and `Put` it.  None of the Go error paths (bucket name validity, JSON
marshalling, `Put` key validity) can fire here, so the result is total. -/
def insert (st : Store) (c : Coll) (s tag now : String) : Store :=
  let b := (st.getB c).getD emptyBucket
  let task : Task :=
    { desc := s, status := STATUS.INCOMPLETE, created := now, completed := "", tag := tag }
  st.setB c (some (seqPut b task))

/-- `getTasks` (lines 591-605): scan the bucket into `TaskPosition`s in
ascending key order.  When the bucket does not exist, `tx.Bucket` returns
nil and `b.ForEach` dereferences the nil bucket pointer, so the Go process
panics: that outcome is `none`. -/
def getTasks (st : Store) (c : Coll) : Option (List TaskPosition) :=
  match st.getB c with
  | none => none
  | some b => some (b.entries.map (fun kv => { task := kv.2, dbKey := kv.1 }))

/-- `getTask` (lines 607-625): point lookup with typed errors for a missing
bucket and a missing key. -/
def getTask (st : Store) (key : Nat) : Except String Task :=
  match st.tasks with
  | none => .error "Task bucket does not exist"
  | some b =>
    match lookupEntries b.entries key with
    | none => .error "Key does not exist"
    | some t => .ok t

/-- `updateTask` (lines 627-643): upsert at the key; errors only when the
tasks bucket does not exist (JSON marshalling cannot fail). -/
def updateTask (st : Store) (taskId : Nat) (updated : Task) : Except String Store :=
  match st.tasks with
  | none => .error "Tasks bucket does not exist"
  | some b => .ok { st with tasks := some { entries := putEntries b.entries taskId updated, seq := b.seq } }

/-- `getCount` (lines 702-715): `Stats().KeyN`, 0 for a missing bucket. -/
def getCount (st : Store) (c : Coll) : Nat :=
  match st.getB c with
  | none => 0
  | some b => b.entries.length

/-- `deleteKey` (lines 720-732): error if the bucket is missing, else
`Delete` the key (a no-op for an absent key) and `renumberEntires`. -/
def deleteKey (k : Nat) (st : Store) (c : Coll) : Except String Store :=
  match st.getB c with
  | none => .error ("Could not find the `" ++ collName c ++ "` bucket")
  | some b =>
    .ok (st.setB c (some (renumberEntires { entries := delEntries b.entries k, seq := b.seq })))

/-- `deleteKeys` (lines 737-763): `os.Exit(1)` (= `none`) if the bucket is
missing; otherwise collect the values whose key is not listed, delete and
re-create the bucket, re-insert them via `NextSequence`/`Put`, and
`renumberEntires`. -/
def deleteKeys (toDelete : List Nat) (st : Store) (c : Coll) : Option Store :=
  match st.getB c with
  | none => none
  | some b =>
    let filtered := (b.entries.filter (fun kv => !(toDelete.contains kv.1))).map Prod.snd
    let nb := filtered.foldl seqPut emptyBucket
    some (st.setB c (some (renumberEntires nb)))

/-- `completeTask` (lines 766-801): `os.Exit(1)` (= `none`) when the tasks
bucket or the task id is missing; a silent no-op when the task is already
COMPLETE; otherwise set status COMPLETE and stamp `Completed`. -/
def completeTask (taskID : Nat) (st : Store) (now : String) : Option Store :=
  match st.tasks with
  | none => none
  | some b =>
    match lookupEntries b.entries taskID with
    | none => none
    | some t =>
      if t.status = STATUS.COMPLETE then some st
      else
        let t' := { t with status := STATUS.COMPLETE, completed := now }
        some { st with tasks := some { entries := putEntries b.entries taskID t', seq := b.seq } }

/-- `finish` (lines 804-836): error (transaction rolled back, store
unchanged) when the tasks bucket is missing; otherwise walk the tasks
bucket, appending COMPLETE values to the archive (created if absent) via
`NextSequence`/`Put` and collecting the rest, then delete and re-create the
tasks bucket and re-insert the rest via `NextSequence`/`Put`. -/
def finish (st : Store) : Except String Store :=
  match st.tasks with
  | none => .error "No tasks exist"
  | some b =>
    let archive0 := st.archive.getD emptyBucket
    let p := b.entries.foldl
      (fun (acc : List Task × Bucket) kv =>
        if kv.2.status ≠ STATUS.COMPLETE then (acc.1 ++ [kv.2], acc.2)
        else (acc.1, seqPut acc.2 kv.2))
      ([], archive0)
    let nb := p.1.foldl seqPut emptyBucket
    .ok { tasks := some nb, archive := some p.2 }

/-- The status-flip path of the `update` command (src/root.go lines
83-158 with `UpdateStatus = true`, `UpdatedDesc = ""`): validate the id
against `getCount`, load the task (`t, _ := getTask(db, id)` ignores the
error, leaving the zero Task), flip status and `Completed` (lines 118-127),
and write back with `updateTask`.  The cobra error return makes the process
exit non-zero, so callers compose it like the other fallible operations. -/
def updateCmdStatusFlip (st : Store) (id : Nat) (now : String) : Except String Store :=
  let taskCount := getCount st .tasks
  if id > taskCount ∨ id = 0 then .error "Invalid task ID"
  else
    let t := match getTask st id with
      | .ok t => t
      | .error _ => { desc := "", status := "", created := "", completed := "", tag := "" }
    let t' := if t.status = STATUS.COMPLETE
      then { t with status := STATUS.INCOMPLETE, completed := "" }
      else { t with status := STATUS.COMPLETE, completed := now }
    updateTask st id t'

/-! ## Operation sequences

One step per core mutating operation.  Operations whose Go path ends in
`os.Exit`, a panic, or a command error all stop the process, so a failing
step aborts the whole sequence (`none`). -/

/-- A core mutating operation, with its timestamp argument where Go calls
`time.Now()`. -/
inductive Op where
  | insert (c : Coll) (s tag now : String)
  | delete (c : Coll) (k : Nat)
  | deleteMany (c : Coll) (ks : List Nat)
  | complete (id : Nat) (now : String)
  | updateStatus (id : Nat) (now : String)
  | finishOp
  deriving DecidableEq, Repr

/-- Timestamps produced by `time.Now().Format(RFC3339)` are non-empty; this
records that fact for the operations that stamp `Completed`. -/
def opTimeOk : Op → Bool
  | .complete _ now => now != ""
  | .updateStatus _ now => now != ""
  | _ => true

/-- Run one operation. -/
def applyOp (st : Store) : Op → Option Store
  | .insert c s tag now => some (insert st c s tag now)
  | .delete c k => (deleteKey k st c).toOption
  | .deleteMany c ks => deleteKeys ks st c
  | .complete id now => completeTask id st now
  | .updateStatus id now => (updateCmdStatusFlip st id now).toOption
  | .finishOp => (finish st).toOption

/-- Run a sequence of operations, stopping at the first failure. -/
def applyOps : Store → List Op → Option Store
  | st, [] => some st
  | st, op :: ops =>
    match applyOp st op with
    | none => none
    | some st' => applyOps st' ops

/-- A concrete operation sequence for the C1 witness: two inserts then a
delete on "tasks". -/
def c1Ops : List Op :=
  [Op.insert .tasks "a" "" "t", Op.insert .tasks "b" "" "t", Op.delete .tasks 1]

/-- The surviving task of `c1Ops`. -/
def c1Task : Task :=
  { desc := "b", status := "incomplete", created := "t", completed := "", tag := "" }

/-- The store `c1Ops` produces from `initStore`. -/
def c1Result : Store :=
  { tasks := some { entries := [(1, c1Task)], seq := 1 }, archive := some emptyBucket }

/-- Shorthand for building a `Task` literal. -/
def mkTask (d s cr co tg : String) : Task :=
  { desc := d, status := s, created := cr, completed := co, tag := tg }

/-- The `finish` test scenario (claim C2, and TestFinish in the repo):
insert "a","b","c","d", complete ids 2 and 3, then finish. -/
def c2Ops : List Op :=
  [Op.insert .tasks "a" "" "t1", Op.insert .tasks "b" "" "t2",
   Op.insert .tasks "c" "" "t3", Op.insert .tasks "d" "" "t4",
   Op.complete 2 "n1", Op.complete 3 "n2", Op.finishOp]

/-- The tasks bucket `c2Ops` produces. -/
def c2TasksBucket : Bucket :=
  { entries := [(1, mkTask "a" "incomplete" "t1" "" ""),
                (2, mkTask "d" "incomplete" "t4" "" "")],
    seq := 2 }

/-- The archive bucket `c2Ops` produces. -/
def c2ArchiveBucket : Bucket :=
  { entries := [(1, mkTask "b" "complete" "t2" "n1" ""),
                (2, mkTask "c" "complete" "t3" "n2" "")],
    seq := 2 }

/-- The store `c2Ops` produces from `initStore`. -/
def c2Result : Store :=
  { tasks := some c2TasksBucket, archive := some c2ArchiveBucket }

/-- A one-entry tasks bucket holding a COMPLETE task (for the C2 witness). -/
def cwBucket : Bucket := { entries := [(1, mkTask "x" "complete" "t" "n" "")], seq := 1 }

/-- A store holding `cwBucket` and an empty archive (for the C2 witness). -/
def cwStore : Store := { tasks := some cwBucket, archive := some emptyBucket }

/-- The values of the not-COMPLETE entries of a bucket, in entry order
(what `finish` keeps in "tasks"). -/
def keepVals (b : Bucket) : List Task :=
  (b.entries.filter (fun kv => decide (kv.2.status ≠ STATUS.COMPLETE))).map Prod.snd

/-- The values of the COMPLETE entries of a bucket, in entry order
(what `finish` moves to "archive"). -/
def doneVals (b : Bucket) : List Task :=
  (b.entries.filter (fun kv => decide (kv.2.status = STATUS.COMPLETE))).map Prod.snd

/-- The tasks bucket `finish` rebuilds: the kept values renumbered densely
from 1, sequence reset to their count. -/
def finishTasksBucket (b : Bucket) : Bucket :=
  { entries := (List.range' 1 (keepVals b).length).zip (keepVals b),
    seq := (keepVals b).length }

/-- The archive bucket `finish` produces from tasks bucket `b` and archive
bucket `a0`: the moved values appended under the next sequence ids. -/
def finishArchiveBucket (b a0 : Bucket) : Bucket :=
  { entries := a0.entries ++ (List.range' (a0.seq + 1) (doneVals b).length).zip (doneVals b),
    seq := a0.seq + (doneVals b).length }

/-- A one-entry tasks bucket holding a COMPLETE task (for the C6 witness). -/
def c6Bucket : Bucket := { entries := [(1, mkTask "x" "complete" "t" "n" "")], seq := 1 }

/-- A store holding `c6Bucket` and no archive bucket (for the C6 witness). -/
def c6Store : Store := { tasks := some c6Bucket, archive := none }

/-! ## Query layer: `filterTasks` (src/root.go lines 647-683) -/

/-- The second loop of `filterTasks`: a task with an empty tag is appended
when "none" is included, and a task whose tag is listed is appended — two
independent appends, exactly as in the Go loop body. -/
def includePass (inc : List String) (includeNoTag : Bool) : List TaskPosition → List TaskPosition
  | [] => []
  | t :: rest =>
    (if t.task.tag == "" && includeNoTag then [t] else []) ++
    (if inc.contains t.task.tag then [t] else []) ++
    includePass inc includeNoTag rest

/-- `filterTasks` (Go parameters `include`/`exclude`; `include` is a Lean
keyword, so they are named `inc`/`exc`): return the input when both filters
are empty; drop excluded tasks (a `continue` loop, i.e. a filter); run the
include loop; return its result only when `inc` is non-empty. -/
def filterTasks (tp : List TaskPosition) (inc exc : List String) : List TaskPosition :=
  if inc.length = 0 ∧ exc.length = 0 then tp
  else
    let excludeNoTag := exc.contains "none"
    let filtered := tp.filter
      (fun t => !(exc.contains t.task.tag) && !(t.task.tag == "" && excludeNoTag))
    let finalFilter := includePass inc (inc.contains "none") filtered
    if inc.length > 0 then finalFilter else filtered

/-- A task position whose tag is the literal string "none" (claim C8). -/
def c8NoneTask : TaskPosition := { task := mkTask "y" "incomplete" "t" "" "none", dbKey := 1 }

/-- A task position with an empty tag (claim C10). -/
def c10Task : TaskPosition := { task := mkTask "x" "incomplete" "t" "" "", dbKey := 1 }

/-! ## Tag parser: `parseTags` (src/root.go lines 534-557)

The Go code runs `regexp.MustCompile` on the pattern "plus sign followed by
one or more non-space characters" with `FindAllStringSubmatch(s, -1)`:
left-to-right, non-overlapping, greedy matches.  `findMatchesAux` is that
scan as a state machine over the characters: outside a match it looks for a
`+` immediately followed by a non-space; inside a match (`some acc`, the
capture so far in reverse) it extends the run until a space or the end. -/

def findMatchesAux : Option (List Char) → List Char → List (List Char)
  | none, [] => []
  | some acc, [] => [acc.reverse]
  | some acc, c :: rest =>
    if c = ' ' then acc.reverse :: findMatchesAux none rest
    else findMatchesAux (some (c :: acc)) rest
  | none, [_] => []
  | none, c :: d :: rest =>
    if c = '+' then
      if d = ' ' then findMatchesAux none (d :: rest)
      else findMatchesAux (some [d]) rest
    else findMatchesAux none (d :: rest)

/-- All capture groups (the text after `+`) of the regex matches, in order
of appearance; the full match text of a capture `m` is `'+' :: m`. -/
def findMatches (l : List Char) : List (List Char) := findMatchesAux none l

/-- `strings.Contains`. -/
def containsSub (s sub : List Char) : Bool :=
  match s with
  | [] => sub.isEmpty
  | _ :: rest => sub.isPrefixOf s || containsSub rest sub

/-- Removal of the first occurrence of `sub`, if any: this is both
`strings.Cut(s, sub)` re-glued (`b + a`) and `strings.Replace(s, sub, "", 1)`.
When `sub` does not occur the input is returned unchanged. -/
def removeFirst : List Char → List Char → List Char
  | [], _ => []
  | c :: rest, sub =>
    if sub.isPrefixOf (c :: rest) then (c :: rest).drop sub.length
    else c :: removeFirst rest sub

/-- The white-space class of `strings.TrimSpace` restricted to ASCII
(`unicode.IsSpace` also covers some non-ASCII code points, which never
appear in the inputs evaluated here). -/
def isSpaceGo (c : Char) : Bool :=
  c = ' ' || c = '\t' || c = '\n' || c = (Char.ofNat 11) || c = (Char.ofNat 12) || c = '\r'

/-- `strings.TrimSpace`. -/
def trimSpace (l : List Char) : List Char :=
  ((l.dropWhile isSpaceGo).reverse.dropWhile isSpaceGo).reverse

/-- `parseTags` on characters: collect all matches; for each match `m` in
order, if the ORIGINAL string contains `" " ++ m[0]` then remove the first
occurrence of `" " ++ m[0]` from the evolving string (`strings.Cut`), else
remove the first occurrence of `m[0]` (`strings.Replace` with count 1);
finally trim white space. -/
def parseTagsL (s : List Char) : List (List Char) × List Char :=
  let ms := findMatches s
  let parsed := ms.foldl
    (fun parsed run =>
      let m0 := '+' :: run
      if containsSub s (' ' :: m0) then removeFirst parsed (' ' :: m0)
      else removeFirst parsed m0)
    s
  (ms, trimSpace parsed)

/-- `parseTags` (lines 534-557) on strings. -/
def parseTags (s : String) : List String × String :=
  let p := parseTagsL s.data
  (p.1.map (fun l => String.mk l), String.mk p.2)

/-! ## Invariants -/

/-- Entry keys are strictly ascending. -/
def KeysSorted (l : Entries) : Prop := l.Pairwise (fun a b => a.1 < b.1)

/-- Entry keys are positive (every bolt key here came from `NextSequence`
or a renumbering, both of which start at 1). -/
def KeysPos (l : Entries) : Prop := ∀ e ∈ l, 1 ≤ e.1

/-- A densely numbered bucket: keys are exactly 1..count in order and the
sequence counter equals the count. -/
def goodBucket (b : Bucket) : Prop :=
  b.entries.map Prod.fst = List.range' 1 b.entries.length ∧ b.seq = b.entries.length

/-- Both collections exist and are densely numbered. -/
def goodStore (st : Store) : Prop :=
  (∃ b, st.tasks = some b ∧ goodBucket b) ∧ (∃ b, st.archive = some b ∧ goodBucket b)

/-- The completed-timestamp/status invariant of claim C7. -/
def TaskWF (t : Task) : Prop := t.completed ≠ "" ↔ t.status = STATUS.COMPLETE

/-- Every task stored in a bucket satisfies `TaskWF`. -/
def bucketWF (b : Bucket) : Prop := ∀ kv ∈ b.entries, TaskWF kv.2

/-- Every stored task satisfies `TaskWF`. -/
def storeWF (st : Store) : Prop :=
  (∀ b, st.tasks = some b → bucketWF b) ∧ (∀ b, st.archive = some b → bucketWF b)

/-- A concrete operation sequence for the C7 witness. -/
def c7Ops : List Op := [Op.insert .tasks "a" "" "t", Op.complete 1 "n"]

/-- The store `c7Ops` produces from `initStore`. -/
def c7Result : Store :=
  { tasks := some { entries := [(1, mkTask "a" "complete" "t" "n" "")], seq := 1 },
    archive := some emptyBucket }

/-! # Theorems -/

/-! ## Codec (claim C4) -/

theorem beUint64_foldl (l : List Nat) :
    ∀ acc : Nat, l.foldl (fun acc x => acc * 256 + x) acc
      = acc * 256 ^ l.length + beUint64 l := by
  induction l with
  | nil => intro acc; simp [beUint64]
  | cons x l ih =>
    intro acc
    have h1 := ih (acc * 256 + x)
    have h2 := ih (0 * 256 + x)
    simp only [List.foldl_cons, List.length_cons, beUint64] at *
    rw [h1, h2]
    ring

theorem beUint64_cons (x : Nat) (l : List Nat) :
    beUint64 (x :: l) = x * 256 ^ l.length + beUint64 l := by
  have h := beUint64_foldl l (0 * 256 + x)
  simpa [beUint64] using h

theorem beUint64_lt_pow (l : List Nat) (h : ∀ x ∈ l, x < 256) :
    beUint64 l < 256 ^ l.length := by
  induction l with
  | nil => simp [beUint64]
  | cons x l ih =>
    have hx : x < 256 := h x (List.mem_cons_self x l)
    have hl : beUint64 l < 256 ^ l.length := ih (fun y hy => h y (List.mem_cons_of_mem x hy))
    rw [beUint64_cons]
    calc x * 256 ^ l.length + beUint64 l
        < x * 256 ^ l.length + 256 ^ l.length := by omega
      _ = (x + 1) * 256 ^ l.length := by ring
      _ ≤ 256 * 256 ^ l.length := Nat.mul_le_mul_right _ (by omega)
      _ = 256 ^ (x :: l).length := by rw [List.length_cons]; ring

theorem bytesLt_iff_beUint64_lt (as : List Nat) :
    ∀ bs : List Nat, as.length = bs.length → (∀ x ∈ as, x < 256) → (∀ x ∈ bs, x < 256) →
      (bytesLt as bs = true ↔ beUint64 as < beUint64 bs) := by
  induction as with
  | nil =>
    intro bs hlen _ _
    cases bs with
    | nil => simp [bytesLt]
    | cons b bs => simp at hlen
  | cons a as ih =>
    intro bs hlen ha hb
    cases bs with
    | nil => simp at hlen
    | cons b bs =>
      have hlen' : as.length = bs.length := by simpa using hlen
      have has : ∀ x ∈ as, x < 256 := fun y hy => ha y (List.mem_cons_of_mem a hy)
      have hbs : ∀ x ∈ bs, x < 256 := fun y hy => hb y (List.mem_cons_of_mem b hy)
      have hvas : beUint64 as < 256 ^ as.length := beUint64_lt_pow as has
      have hvbs : beUint64 bs < 256 ^ bs.length := beUint64_lt_pow bs hbs
      rw [beUint64_cons, beUint64_cons, ← hlen']
      by_cases hab : a < b
      · have hlt : a * 256 ^ as.length + beUint64 as < b * 256 ^ as.length + beUint64 bs := by
          calc a * 256 ^ as.length + beUint64 as
              < a * 256 ^ as.length + 256 ^ as.length := by omega
            _ = (a + 1) * 256 ^ as.length := by ring
            _ ≤ b * 256 ^ as.length := Nat.mul_le_mul_right _ (by omega)
            _ ≤ b * 256 ^ as.length + beUint64 bs := Nat.le_add_right _ _
        simp [bytesLt, hab, hlt]
      · by_cases hba : b < a
        · have hlt : b * 256 ^ as.length + beUint64 bs < a * 256 ^ as.length + beUint64 as := by
            calc b * 256 ^ as.length + beUint64 bs
                < b * 256 ^ as.length + 256 ^ as.length := by rw [hlen']; omega
              _ = (b + 1) * 256 ^ as.length := by ring
              _ ≤ a * 256 ^ as.length := Nat.mul_le_mul_right _ (by omega)
              _ ≤ a * 256 ^ as.length + beUint64 as := Nat.le_add_right _ _
          simp [bytesLt, hab, hba]
          omega
        · have hab' : a = b := by omega
          subst hab'
          simp [bytesLt]
          rw [ih bs hlen' has hbs]

theorem itob_bytes_lt (n : Nat) : ∀ x ∈ itob n, x < 256 := by
  intro x hx
  simp only [itob, List.mem_cons, List.not_mem_nil, or_false] at hx
  rcases hx with h | h | h | h | h | h | h | h <;> omega

theorem beUint64_itob (n : Nat) : beUint64 (itob n) = n % 2 ^ 64 := by
  simp only [itob, beUint64, List.foldl]
  omega

/-- C4: on the domain of non-negative 64-bit integers (`0 ≤ n < 2^63`, the
non-negative values of Go's `int`), `btoi` is a left inverse of `itob`, and
`itob` maps numeric order to byte-lexicographic order. -/
theorem itob_btoi_orderIso :
    (∀ n : Nat, n < 2 ^ 63 → btoi (itob n) = (n : Int)) ∧
    (∀ a b : Nat, a < 2 ^ 63 → b < 2 ^ 63 →
      (bytesLt (itob a) (itob b) = true ↔ a < b)) := by
  constructor
  · intro n hn
    have h : beUint64 (itob n) = n := by
      rw [beUint64_itob]; omega
    rw [btoi, h, intOfUint64]
    rw [if_pos (by omega)]
  · intro a b ha hb
    have hlen : (itob a).length = (itob b).length := by simp [itob]
    have h := bytesLt_iff_beUint64_lt (itob a) (itob b) hlen (itob_bytes_lt a) (itob_bytes_lt b)
    rw [h, beUint64_itob, beUint64_itob]
    omega

/-- C4 witness: the theorem applied at the concrete inputs 5, 3 and 7. -/
theorem itob_btoi_orderIso_witness :
    btoi (itob 5) = (5 : Int) ∧ (bytesLt (itob 3) (itob 7) = true ↔ 3 < 7) :=
  ⟨itob_btoi_orderIso.1 5 (by norm_num),
   itob_btoi_orderIso.2 3 7 (by norm_num) (by norm_num)⟩

/-! ## Entry-list lemmas -/

theorem range1_concat (s n : Nat) : List.range' s (n + 1) = List.range' s n ++ [s + n] := by
  induction n generalizing s with
  | zero => simp
  | succ n ih =>
    have h1 : List.range' s (n + 2) = s :: List.range' (s + 1) (n + 1) := rfl
    have h2 : List.range' s (n + 1) = s :: List.range' (s + 1) n := rfl
    rw [h1, ih (s + 1), h2]
    simp [List.cons_append]
    omega

theorem range1_pairwise (s n : Nat) : (List.range' s n).Pairwise (fun a b => a < b) := by
  induction n generalizing s with
  | zero => simp
  | succ n ih =>
    rw [show List.range' s (n + 1) = s :: List.range' (s + 1) n from rfl]
    refine List.pairwise_cons.mpr ⟨?_, ih (s + 1)⟩
    intro m hm
    have := List.mem_range'_1.mp hm
    omega

theorem goodBucket_keysSorted {b : Bucket} (h : goodBucket b) : KeysSorted b.entries := by
  have hp : (b.entries.map Prod.fst).Pairwise (fun a b => a < b) := by
    rw [h.1]; exact range1_pairwise 1 b.entries.length
  rw [List.pairwise_map] at hp
  exact hp

theorem goodBucket_keysPos {b : Bucket} (h : goodBucket b) : KeysPos b.entries := by
  intro e he
  have hm : e.1 ∈ b.entries.map Prod.fst := List.mem_map_of_mem Prod.fst he
  rw [h.1] at hm
  exact (List.mem_range'_1.mp hm).1

theorem goodBucket_keyLt {b : Bucket} (h : goodBucket b) : ∀ e ∈ b.entries, e.1 < b.seq + 1 := by
  intro e he
  have hm : e.1 ∈ b.entries.map Prod.fst := List.mem_map_of_mem Prod.fst he
  rw [h.1] at hm
  have h1 := List.mem_range'_1.mp hm
  have h2 := h.2
  omega

theorem goodBucket_empty : goodBucket emptyBucket := ⟨rfl, rfl⟩

theorem putEntries_middle (D : Entries) :
    ∀ (S : Entries) (k : Nat) (v : Task), (∀ e ∈ D, e.1 < k) → (∀ e ∈ S, k < e.1) →
      putEntries (D ++ S) k v = D ++ (k, v) :: S := by
  induction D with
  | nil =>
    intro S k v _ hS
    cases S with
    | nil => rfl
    | cons e rest =>
      have h : k < e.1 := hS e (List.mem_cons_self e rest)
      simp [putEntries, h]
  | cons d D ih =>
    intro S k v hD hS
    have hd : d.1 < k := hD d (List.mem_cons_self d D)
    have h1 : ¬ k < d.1 := by omega
    have h2 : ¬ k = d.1 := by omega
    simp only [List.cons_append, putEntries, if_neg h1, if_neg h2, List.cons.injEq, true_and]
    exact ih S k v (fun e he => hD e (List.mem_cons_of_mem d he)) hS

theorem putEntries_append (l : Entries) (k : Nat) (v : Task) (h : ∀ e ∈ l, e.1 < k) :
    putEntries l k v = l ++ [(k, v)] := by
  have := putEntries_middle l [] k v h (by intro e he; simp at he)
  simpa using this

theorem putEntries_mapFst (l : Entries) :
    ∀ (k : Nat) (v : Task), KeysSorted l → k ∈ l.map Prod.fst →
      (putEntries l k v).map Prod.fst = l.map Prod.fst := by
  induction l with
  | nil => intro k v _ hk; simp at hk
  | cons e rest ih =>
    intro k v hs hk
    by_cases h1 : k = e.1
    · have hlt : ¬ k < e.1 := by omega
      simp [putEntries, hlt, h1]
    · have hk' : k ∈ rest.map Prod.fst := by
        have hk0 := hk
        rw [List.map_cons] at hk0
        rcases List.mem_cons.mp hk0 with h | h
        · exact absurd h h1
        · exact h
      have he : e.1 < k := by
        obtain ⟨f, hf, hfk⟩ := List.mem_map.mp hk'
        have := (List.pairwise_cons.mp hs).1 f hf
        omega
      have hnlt : ¬ k < e.1 := by omega
      simp only [putEntries, if_neg hnlt, if_neg h1, List.map_cons, List.cons.injEq, true_and]
      exact ih k v (List.pairwise_cons.mp hs).2 hk'

theorem mem_putEntries (l : Entries) :
    ∀ (k : Nat) (v : Task) (e : Nat × Task), e ∈ putEntries l k v → e = (k, v) ∨ e ∈ l := by
  induction l with
  | nil =>
    intro k v e he
    simp [putEntries] at he
    exact Or.inl he
  | cons d rest ih =>
    intro k v e he
    by_cases h1 : k < d.1
    · simp only [putEntries, if_pos h1] at he
      rcases List.mem_cons.mp he with h | h
      · exact Or.inl h
      · exact Or.inr h
    · by_cases h2 : k = d.1
      · simp only [putEntries, if_neg h1, if_pos h2] at he
        rcases List.mem_cons.mp he with h | h
        · exact Or.inl h
        · exact Or.inr (List.mem_cons_of_mem d h)
      · simp only [putEntries, if_neg h1, if_neg h2] at he
        rcases List.mem_cons.mp he with h | h
        · exact Or.inr (h ▸ List.mem_cons_self d rest)
        · rcases ih k v e h with h' | h'
          · exact Or.inl h'
          · exact Or.inr (List.mem_cons_of_mem d h')

theorem delEntries_not_mem (l : Entries) (k : Nat) (h : ∀ e ∈ l, e.1 ≠ k) :
    delEntries l k = l :=
  List.filter_eq_self.mpr (fun e he => by simpa using h e he)

theorem delEntries_middle (D S : Entries) (k : Nat) (v : Task)
    (hD : ∀ e ∈ D, e.1 ≠ k) (hS : ∀ e ∈ S, e.1 ≠ k) :
    delEntries (D ++ (k, v) :: S) k = D ++ S := by
  have h1 : delEntries D k = D := delEntries_not_mem D k hD
  have h2 : delEntries S k = S := delEntries_not_mem S k hS
  simp only [delEntries, List.filter_append, List.filter_cons] at *
  simp only [ne_eq, not_true_eq_false, decide_False, Bool.false_eq_true, if_false] at *
  rw [h1, h2]

theorem keysSorted_del (l : Entries) (k : Nat) (h : KeysSorted l) : KeysSorted (delEntries l k) :=
  List.Pairwise.sublist (List.filter_sublist l) h

theorem keysPos_del (l : Entries) (k : Nat) (h : KeysPos l) : KeysPos (delEntries l k) :=
  fun e he => h e (List.mem_of_mem_filter he)

theorem lookupEntries_mem_keys (l : Entries) :
    ∀ (k : Nat) (t : Task), lookupEntries l k = some t → k ∈ l.map Prod.fst := by
  induction l with
  | nil => intro k t h; simp [lookupEntries] at h
  | cons e rest ih =>
    intro k t h
    by_cases he : e.1 = k
    · simp [he]
    · rw [lookupEntries, if_neg he] at h
      simpa using Or.inr (ih k t h)

/-! ## The renumbering pass -/

theorem renumberFold :
    ∀ (S D : Entries) (i : Nat),
      (∀ e ∈ D, e.1 ≤ i) → KeysSorted S → (∀ e ∈ S, i < e.1) →
      S.foldl (fun (acc : Nat × Entries) kv =>
          (acc.1 + 1, putEntries (delEntries acc.2 kv.1) (acc.1 + 1) kv.2)) (i, D ++ S)
        = (i + S.length, D ++ (List.range' (i + 1) S.length).zip (S.map Prod.snd)) := by
  intro S
  induction S with
  | nil => intro D i _ _ _; simp
  | cons kv S ih =>
    intro D i hD hsort hgt
    obtain ⟨k, v⟩ := kv
    have hk : i < k := hgt (k, v) (List.mem_cons_self _ _)
    have hSk : ∀ e ∈ S, k < e.1 := (List.pairwise_cons.mp hsort).1
    have hdel : delEntries (D ++ (k, v) :: S) k = D ++ S :=
      delEntries_middle D S k v (fun e he => by have := hD e he; omega)
        (fun e he => by have := hSk e he; omega)
    have hput : putEntries (D ++ S) (i + 1) v = D ++ (i + 1, v) :: S :=
      putEntries_middle D S (i + 1) v (fun e he => by have := hD e he; omega)
        (fun e he => by have := hSk e he; omega)
    rw [List.foldl_cons]
    rw [show ((i, D ++ (k, v) :: S).1 + 1,
        putEntries (delEntries (i, D ++ (k, v) :: S).2 (k, v).1)
          ((i, D ++ (k, v) :: S).1 + 1) (k, v).2) = (i + 1, D ++ (i + 1, v) :: S) from by
      rw [show (i, D ++ (k, v) :: S).2 = D ++ (k, v) :: S from rfl]
      rw [show ((k, v) : Nat × Task).1 = k from rfl, show ((k, v) : Nat × Task).2 = v from rfl]
      rw [hdel, hput]]
    rw [show D ++ (i + 1, v) :: S = (D ++ [(i + 1, v)]) ++ S by simp]
    rw [ih (D ++ [(i + 1, v)]) (i + 1)
      (by
        intro e he
        rcases List.mem_append.mp he with h | h
        · have := hD e h; omega
        · simp at h; subst h; simp)
      (List.pairwise_cons.mp hsort).2
      (fun e he => by have h1 := hSk e he; omega)]
    rw [Prod.mk.injEq]
    constructor
    · simp; omega
    · rw [show List.range' (i + 1) (((k, v) :: S).length)
          = (i + 1) :: List.range' (i + 1 + 1) S.length from rfl]
      simp [List.append_assoc]

theorem renumber_spec (b : Bucket) (hs : KeysSorted b.entries) (hp : KeysPos b.entries) :
    renumberEntires b =
      { entries := (List.range' 1 b.entries.length).zip (b.entries.map Prod.snd),
        seq := b.entries.length } := by
  unfold renumberEntires
  have h := renumberFold b.entries [] 0 (by intro e he; simp at he) hs
    (fun e he => hp e he)
  rw [List.nil_append] at h
  rw [h]
  simp

theorem goodBucket_renumber (b : Bucket) (hs : KeysSorted b.entries) (hp : KeysPos b.entries) :
    goodBucket (renumberEntires b) := by
  rw [renumber_spec b hs hp]
  have hlen : ((List.range' 1 b.entries.length).zip (b.entries.map Prod.snd)).length
      = b.entries.length := by
    simp [List.length_zip, List.length_range']
  constructor
  · show ((List.range' 1 b.entries.length).zip (b.entries.map Prod.snd)).map Prod.fst
      = List.range' 1 ((List.range' 1 b.entries.length).zip (b.entries.map Prod.snd)).length
    rw [hlen]
    exact List.map_fst_zip _ _ (by simp [List.length_range'])
  · exact hlen.symm

/-! ## Sequence-driven appends -/

theorem seqPut_entries (b : Bucket) (hb : goodBucket b) (t : Task) :
    (seqPut b t).entries = b.entries ++ [(b.seq + 1, t)] ∧ goodBucket (seqPut b t) := by
  have happ : putEntries b.entries (b.seq + 1) t = b.entries ++ [(b.seq + 1, t)] :=
    putEntries_append b.entries (b.seq + 1) t (goodBucket_keyLt hb)
  refine ⟨happ, ?_, ?_⟩
  · show (putEntries b.entries (b.seq + 1) t).map Prod.fst
      = List.range' 1 (putEntries b.entries (b.seq + 1) t).length
    rw [happ, List.map_append, List.length_append, hb.1, hb.2]
    simp only [List.map_cons, List.map_nil, List.length_cons, List.length_nil]
    rw [range1_concat 1 b.entries.length]
    simp [Nat.add_comm]
  · show b.seq + 1 = (putEntries b.entries (b.seq + 1) t).length
    rw [happ, List.length_append, hb.2]
    simp

theorem foldl_seqPut (vs : List Task) :
    ∀ b : Bucket, goodBucket b →
      goodBucket (vs.foldl seqPut b) ∧
      (vs.foldl seqPut b).entries = b.entries ++ (List.range' (b.seq + 1) vs.length).zip vs ∧
      (vs.foldl seqPut b).seq = b.seq + vs.length := by
  induction vs with
  | nil => intro b hb; exact ⟨hb, by simp, by simp⟩
  | cons v vs ih =>
    intro b hb
    obtain ⟨hents, hgood⟩ := seqPut_entries b hb v
    obtain ⟨g, e, s⟩ := ih (seqPut b v) hgood
    refine ⟨g, ?_, ?_⟩
    · rw [List.foldl_cons, e, hents]
      rw [show (seqPut b v).seq = b.seq + 1 from rfl]
      rw [show List.range' (b.seq + 1) ((v :: vs).length)
          = (b.seq + 1) :: List.range' (b.seq + 1 + 1) vs.length from rfl]
      simp [List.append_assoc]
    · rw [List.foldl_cons, s]
      rw [show (seqPut b v).seq = b.seq + 1 from rfl]
      simp; omega

/-! ## The finish partition -/

theorem finishFold (l : Entries) :
    ∀ (acc : List Task) (ab : Bucket),
      l.foldl (fun (acc : List Task × Bucket) kv =>
          if kv.2.status ≠ STATUS.COMPLETE then (acc.1 ++ [kv.2], acc.2)
          else (acc.1, seqPut acc.2 kv.2)) (acc, ab)
        = (acc ++ (l.filter (fun kv => decide (kv.2.status ≠ STATUS.COMPLETE))).map Prod.snd,
           (((l.filter (fun kv => decide (kv.2.status = STATUS.COMPLETE))).map Prod.snd).foldl
             seqPut ab)) := by
  induction l with
  | nil => intro acc ab; simp
  | cons kv l ih =>
    intro acc ab
    by_cases hc : kv.2.status = STATUS.COMPLETE
    · rw [List.foldl_cons]
      rw [if_neg (by simpa using hc)]
      rw [ih acc (seqPut ab kv.2)]
      rw [List.filter_cons, List.filter_cons]
      simp [hc]
    · rw [List.foldl_cons]
      rw [if_pos hc]
      rw [ih (acc ++ [kv.2]) ab]
      rw [List.filter_cons, List.filter_cons]
      simp [hc, List.append_assoc]

/-! ## Preservation of dense numbering (claim C1) -/

theorem goodStore_getB (st : Store) (hst : goodStore st) (c : Coll) :
    ∃ b, st.getB c = some b ∧ goodBucket b := by
  cases c
  · exact hst.1
  · exact hst.2

theorem goodStore_setB (st : Store) (hst : goodStore st) (c : Coll) (b : Bucket)
    (hb : goodBucket b) : goodStore (st.setB c (some b)) := by
  cases c
  · exact ⟨⟨b, rfl, hb⟩, hst.2⟩
  · exact ⟨hst.1, ⟨b, rfl, hb⟩⟩

theorem goodStore_init : goodStore initStore :=
  ⟨⟨emptyBucket, rfl, goodBucket_empty⟩, ⟨emptyBucket, rfl, goodBucket_empty⟩⟩

theorem goodStore_insert (st : Store) (c : Coll) (s tag now : String)
    (hst : goodStore st) : goodStore (insert st c s tag now) := by
  obtain ⟨b, hb, hgood⟩ := goodStore_getB st hst c
  unfold insert
  rw [hb]
  exact goodStore_setB st hst c _ (seqPut_entries b hgood _).2

theorem goodBucket_del_renumber (b : Bucket) (hgood : goodBucket b) (k : Nat) :
    goodBucket (renumberEntires { entries := delEntries b.entries k, seq := b.seq }) :=
  goodBucket_renumber _ (keysSorted_del _ _ (goodBucket_keysSorted hgood))
    (keysPos_del _ _ (goodBucket_keysPos hgood))

theorem goodStore_deleteKey (k : Nat) (st : Store) (c : Coll) (st' : Store)
    (h : deleteKey k st c = .ok st') (hst : goodStore st) : goodStore st' := by
  obtain ⟨b, hb, hgood⟩ := goodStore_getB st hst c
  unfold deleteKey at h
  rw [hb] at h
  injection h with h
  rw [← h]
  exact goodStore_setB st hst c _ (goodBucket_del_renumber b hgood k)

theorem goodStore_deleteKeys (ks : List Nat) (st : Store) (c : Coll) (st' : Store)
    (h : deleteKeys ks st c = some st') (hst : goodStore st) : goodStore st' := by
  obtain ⟨b, hb, hgood⟩ := goodStore_getB st hst c
  unfold deleteKeys at h
  rw [hb] at h
  injection h with h
  rw [← h]
  apply goodStore_setB st hst c
  have hnb := (foldl_seqPut ((b.entries.filter (fun kv => !(ks.contains kv.1))).map Prod.snd)
    emptyBucket goodBucket_empty).1
  exact goodBucket_renumber _ (goodBucket_keysSorted hnb) (goodBucket_keysPos hnb)

theorem goodBucket_put_mem (b : Bucket) (hgood : goodBucket b) (k : Nat) (v : Task)
    (hk : k ∈ b.entries.map Prod.fst) :
    goodBucket { entries := putEntries b.entries k v, seq := b.seq } := by
  have hmap := putEntries_mapFst b.entries k v (goodBucket_keysSorted hgood) hk
  have hlen : (putEntries b.entries k v).length = b.entries.length := by
    have h := congrArg List.length hmap
    simpa using h
  constructor
  · show (putEntries b.entries k v).map Prod.fst = List.range' 1 (putEntries b.entries k v).length
    rw [hmap, hlen]
    exact hgood.1
  · show b.seq = (putEntries b.entries k v).length
    rw [hlen]
    exact hgood.2

theorem goodStore_completeTask (id : Nat) (st : Store) (now : String) (st' : Store)
    (h : completeTask id st now = some st') (hst : goodStore st) : goodStore st' := by
  obtain ⟨b, hb, hgood⟩ := hst.1
  simp only [completeTask, hb] at h
  cases hl : lookupEntries b.entries id with
  | none => simp only [hl] at h; exact absurd h (by simp)
  | some t =>
    simp only [hl] at h
    by_cases hc : t.status = STATUS.COMPLETE
    · rw [if_pos hc] at h
      injection h with h
      rw [← h]; exact hst
    · rw [if_neg hc] at h
      injection h with h
      rw [← h]
      refine ⟨⟨_, rfl, ?_⟩, hst.2⟩
      exact goodBucket_put_mem b hgood id _ (lookupEntries_mem_keys b.entries id t hl)

theorem goodStore_updateFlip (st : Store) (id : Nat) (now : String) (st' : Store)
    (h : updateCmdStatusFlip st id now = .ok st') (hst : goodStore st) : goodStore st' := by
  obtain ⟨b, hb, hgood⟩ := hst.1
  simp only [updateCmdStatusFlip] at h
  by_cases hid : id > getCount st .tasks ∨ id = 0
  · rw [if_pos hid] at h; exact absurd h (by simp)
  · rw [if_neg hid] at h
    simp only [updateTask, hb] at h
    injection h with h
    rw [← h]
    refine ⟨⟨_, rfl, ?_⟩, hst.2⟩
    apply goodBucket_put_mem b hgood id
    have hcount : getCount st .tasks = b.entries.length := by
      unfold getCount
      rw [show st.getB Coll.tasks = st.tasks from rfl, hb]
    rw [hgood.1, List.mem_range'_1]
    omega

theorem goodStore_finish (st : Store) (st' : Store) (h : finish st = .ok st')
    (hst : goodStore st) : goodStore st' := by
  obtain ⟨bt, hbt, hgt⟩ := hst.1
  obtain ⟨ba, hba, hga⟩ := hst.2
  simp only [finish, hbt, hba, Option.getD_some] at h
  rw [finishFold] at h
  injection h with h
  rw [← h]
  constructor
  · exact ⟨_, rfl, (foldl_seqPut _ emptyBucket goodBucket_empty).1⟩
  · exact ⟨_, rfl, (foldl_seqPut _ ba hga).1⟩

theorem goodStore_applyOp (st : Store) (op : Op) (st' : Store)
    (h : applyOp st op = some st') (hst : goodStore st) : goodStore st' := by
  cases op with
  | insert c s tag now =>
    simp only [applyOp] at h
    injection h with h
    rw [← h]
    exact goodStore_insert st c s tag now hst
  | delete c k =>
    simp only [applyOp] at h
    cases hdk : deleteKey k st c with
    | error e => rw [hdk] at h; exact absurd h (by simp [Except.toOption])
    | ok a =>
      rw [hdk] at h
      simp only [Except.toOption, Option.some.injEq] at h
      rw [← h]
      exact goodStore_deleteKey k st c a hdk hst
  | deleteMany c ks =>
    simp only [applyOp] at h
    exact goodStore_deleteKeys ks st c st' h hst
  | complete id now =>
    simp only [applyOp] at h
    exact goodStore_completeTask id st now st' h hst
  | updateStatus id now =>
    simp only [applyOp] at h
    cases hu : updateCmdStatusFlip st id now with
    | error e => rw [hu] at h; exact absurd h (by simp [Except.toOption])
    | ok a =>
      rw [hu] at h
      simp only [Except.toOption, Option.some.injEq] at h
      rw [← h]
      exact goodStore_updateFlip st id now a hu hst
  | finishOp =>
    simp only [applyOp] at h
    cases hf : finish st with
    | error e => rw [hf] at h; exact absurd h (by simp [Except.toOption])
    | ok a =>
      rw [hf] at h
      simp only [Except.toOption, Option.some.injEq] at h
      rw [← h]
      exact goodStore_finish st a hf hst

theorem goodStore_applyOps (ops : List Op) :
    ∀ (st st' : Store), applyOps st ops = some st' → goodStore st → goodStore st' := by
  induction ops with
  | nil =>
    intro st st' h hst
    simp only [applyOps] at h
    injection h with h
    rw [← h]; exact hst
  | cons op ops ih =>
    intro st st' h hst
    simp only [applyOps] at h
    cases ha : applyOp st op with
    | none => simp only [ha] at h; exact absurd h (by simp)
    | some st1 =>
      simp only [ha] at h
      exact ih st1 st' h (goodStore_applyOp st op st1 ha hst)

/-- C1: after any sequence of core operations starting from the initial
store, for each of the two collections the scan succeeds and returns ids
that are exactly 1..count in ascending order (no gaps, no duplicates), and
the auto-increment sequence equals the count, so the next insert receives
id count+1. -/
theorem scan_ids_dense (ops : List Op) (st : Store) (h : applyOps initStore ops = some st)
    (c : Coll) :
    (getTasks st c).isSome ∧
    ((getTasks st c).getD []).map TaskPosition.dbKey = List.range' 1 (getCount st c) ∧
    ((st.getB c).getD emptyBucket).seq = getCount st c := by
  have hst := goodStore_applyOps ops initStore st h goodStore_init
  obtain ⟨b, hb, hgood⟩ := goodStore_getB st hst c
  unfold getTasks getCount
  rw [hb]
  refine ⟨rfl, ?_, ?_⟩
  · show ((b.entries.map fun kv => TaskPosition.mk kv.2 kv.1).map TaskPosition.dbKey)
      = List.range' 1 b.entries.length
    rw [List.map_map]
    exact hgood.1
  · exact hgood.2

/-- C1 witness: the theorem applied to a concrete operation sequence
(two inserts then a delete on "tasks"). -/
theorem scan_ids_dense_witness :
    (getTasks c1Result .tasks).isSome ∧
    ((getTasks c1Result .tasks).getD []).map TaskPosition.dbKey
      = List.range' 1 (getCount c1Result .tasks) ∧
    ((c1Result.getB .tasks).getD emptyBucket).seq = getCount c1Result .tasks :=
  scan_ids_dense c1Ops c1Result (by decide) .tasks

/-! ## The finish operation (claim C2) -/

theorem bucket_eq_mk (B : Bucket) (es : Entries) (sq : Nat)
    (h1 : B.entries = es) (h2 : B.seq = sq) : B = { entries := es, seq := sq } := by
  cases B
  rw [← h1, ← h2]

/-- C2: `finish` partitions the tasks bucket in ascending id order: the
COMPLETE tasks are appended to the archive under its auto-incremented next
ids in original relative order, the rest become the new tasks bucket
renumbered densely from 1 in original relative order; a missing tasks
bucket fails with the no-tasks error; an existing (even empty) tasks bucket
always succeeds; and the concrete scenario of the spec (insert
"a","b","c","d", complete ids 2 and 3, finish) yields tasks ["a","d"] at
ids 1,2 and archive ["b","c"] at ids 1,2. -/
theorem finish_spec :
    (∀ (st : Store) (b a0 : Bucket), st.tasks = some b → st.archive = some a0 →
      goodBucket a0 →
      finish st = Except.ok
        { tasks := some (finishTasksBucket b), archive := some (finishArchiveBucket b a0) }) ∧
    (∀ st : Store, st.tasks = none → finish st = Except.error "No tasks exist") ∧
    (∀ (st : Store) (b : Bucket), st.tasks = some b → ∃ st', finish st = Except.ok st') ∧
    (applyOps initStore c2Ops = some c2Result ∧
      (getTasks c2Result .tasks).map (List.map (fun p => p.task.desc)) = some ["a", "d"] ∧
      ((getTasks c2Result .tasks).getD []).map TaskPosition.dbKey = [1, 2] ∧
      (getTasks c2Result .archive).map (List.map (fun p => p.task.desc)) = some ["b", "c"] ∧
      ((getTasks c2Result .archive).getD []).map TaskPosition.dbKey = [1, 2]) := by
  refine ⟨?_, ?_, ?_, ?_⟩
  · intro st b a0 hb ha0 hga0
    obtain ⟨g1, e1, s1⟩ := foldl_seqPut (keepVals b) emptyBucket goodBucket_empty
    obtain ⟨g2, e2, s2⟩ := foldl_seqPut (doneVals b) a0 hga0
    simp only [finish, hb, ha0, Option.getD_some]
    rw [finishFold]
    simp only [List.nil_append]
    simp only [keepVals, doneVals] at e1 s1 e2 s2
    rw [bucket_eq_mk _ _ _ e1 s1, bucket_eq_mk _ _ _ e2 s2]
    simp only [finishTasksBucket, finishArchiveBucket, keepVals, doneVals]
    rw [show emptyBucket.entries = ([] : Entries) from rfl,
      show emptyBucket.seq = 0 from rfl]
    simp
  · intro st h
    simp only [finish, h]
  · intro st b hb
    unfold finish
    rw [hb]
    exact ⟨_, rfl⟩
  · exact ⟨by decide, by decide, by decide, by decide, by decide⟩

/-- C2 witness: the partition equation applied to a concrete one-task store
and the error case applied to a bucketless store. -/
theorem finish_spec_witness :
    finish cwStore = Except.ok
      { tasks := some (finishTasksBucket cwBucket),
        archive := some (finishArchiveBucket cwBucket emptyBucket) } ∧
    finish { tasks := none, archive := none } = Except.error "No tasks exist" :=
  ⟨finish_spec.1 cwStore cwBucket emptyBucket rfl rfl ⟨rfl, rfl⟩,
   finish_spec.2.1 { tasks := none, archive := none } rfl⟩

/-! ## deleteKey on a missing id (claim C9) -/

/-- C9: on an existing collection, deleting an id that is not present
succeeds (bolt `Delete` on a missing key is a no-op, not an error), and the
compaction pass still runs: the surviving entries are renumbered densely
1..count with their values unchanged and the sequence is reset to the
count.  `deleteKey` returns its error exactly when the collection itself is
missing. -/
theorem deleteKey_missing_id :
    (∀ (st : Store) (c : Coll) (k : Nat) (b : Bucket),
      st.getB c = some b → KeysSorted b.entries → KeysPos b.entries →
      k ∉ b.entries.map Prod.fst →
      deleteKey k st c = Except.ok (st.setB c (some
        { entries := (List.range' 1 b.entries.length).zip (b.entries.map Prod.snd),
          seq := b.entries.length }))) ∧
    (∀ (st : Store) (c : Coll) (k : Nat),
      (∃ e, deleteKey k st c = Except.error e) ↔ st.getB c = none) := by
  constructor
  · intro st c k b hb hs hp hk
    have hne : ∀ e ∈ b.entries, e.1 ≠ k := by
      intro e he heq
      exact hk (heq ▸ List.mem_map_of_mem Prod.fst he)
    simp only [deleteKey, hb]
    rw [show ({ entries := delEntries b.entries k, seq := b.seq } : Bucket)
        = { entries := b.entries, seq := b.seq } from by
      rw [delEntries_not_mem b.entries k hne]]
    rw [renumber_spec { entries := b.entries, seq := b.seq } hs hp]
  · intro st c k
    cases hb : st.getB c with
    | none =>
      constructor
      · intro _; rfl
      · intro _
        exact ⟨"Could not find the `" ++ collName c ++ "` bucket",
          by simp only [deleteKey, hb]⟩
    | some b =>
      constructor
      · rintro ⟨e, he⟩
        simp only [deleteKey, hb] at he
        exact Except.noConfusion he
      · intro h
        exact absurd h (by simp)

/-- C9 witness: deleting the absent id 5 from the initial (empty but
existing) tasks collection. -/
theorem deleteKey_missing_id_witness :
    deleteKey 5 initStore .tasks = Except.ok (initStore.setB .tasks (some
      { entries := (List.range' 1 emptyBucket.entries.length).zip
          (emptyBucket.entries.map Prod.snd),
        seq := emptyBucket.entries.length })) :=
  deleteKey_missing_id.1 initStore .tasks 5 emptyBucket rfl List.Pairwise.nil
    (fun e he => absurd he (List.not_mem_nil e)) (by decide)

/-! ## Scan on missing or empty collections (claim C5) -/

/-- C5 counterexample: scanning a store whose collection does not exist
does not return an empty sequence — `getTasks` calls `b.ForEach` on the nil
bucket handle returned by `tx.Bucket`, so the Go process panics with a nil
pointer dereference (modelled `none`). -/
theorem getTasks_missing_counterexample :
    getTasks { tasks := none, archive := some emptyBucket } .tasks = none ∧
    getTasks { tasks := none, archive := some emptyBucket } .tasks ≠ some [] := by
  exact ⟨rfl, by decide⟩

/-- C5 amended: scan on an existing-but-empty collection returns an empty
sequence and never an error, without modifying the store (`getTasks` is a
pure read); on a missing collection, however, the code dereferences the nil
bucket handle and the process panics (`none`) instead of returning an empty
sequence. -/
theorem getTasks_empty_or_missing :
    (∀ (st : Store) (c : Coll) (b : Bucket), st.getB c = some b → b.entries = [] →
      getTasks st c = some []) ∧
    (∀ (st : Store) (c : Coll), getTasks st c = none ↔ st.getB c = none) := by
  constructor
  · intro st c b hb he
    simp [getTasks, hb, he]
  · intro st c
    cases hb : st.getB c with
    | none => simp [getTasks, hb]
    | some b => simp [getTasks, hb]

/-- C5 witness: scanning the initial store's empty tasks collection. -/
theorem getTasks_empty_or_missing_witness :
    getTasks initStore .tasks = some [] :=
  getTasks_empty_or_missing.1 initStore .tasks emptyBucket rfl rfl

/-! ## Process exits versus typed errors (claim C6) -/

/-- C6 counterexample: two core operations terminate the process instead of
returning a typed error — `completeTask` calls `os.Exit(1)` when the tasks
bucket (or the id) is missing, and `deleteKeys` calls `os.Exit(1)` when the
bucket is missing (both modelled `none`). -/
theorem completeTask_exits_counterexample :
    completeTask 1 { tasks := none, archive := none } "ts" = none ∧
    deleteKeys [1] { tasks := none, archive := none } .tasks = none :=
  ⟨rfl, rfl⟩

/-- C6 amended: `insert`, `getTask`, `updateTask`, `getCount`, `deleteKey`
and `finish` always either succeed or return their specific typed error
(characterized exactly below), and the already-complete no-op of
`completeTask` leaves the store unchanged; but `deleteKeys` and
`completeTask` terminate the process (`none`) on a missing collection or
missing id, and `getTasks` panics on a missing collection, instead of
returning errors. -/
theorem core_ops_error_or_exit :
    (∀ (ks : List Nat) (st : Store) (c : Coll),
      deleteKeys ks st c = none ↔ st.getB c = none) ∧
    (∀ (id : Nat) (st : Store) (now : String),
      completeTask id st now = none ↔
        (st.tasks = none ∨ ∃ b, st.tasks = some b ∧ lookupEntries b.entries id = none)) ∧
    (∀ (id : Nat) (st : Store) (now : String) (b : Bucket) (t : Task),
      st.tasks = some b → lookupEntries b.entries id = some t →
      t.status = STATUS.COMPLETE → completeTask id st now = some st) ∧
    (∀ (st : Store) (c : Coll), getTasks st c = none ↔ st.getB c = none) ∧
    (∀ (k : Nat) (st : Store) (c : Coll),
      (∃ e, deleteKey k st c = Except.error e) ↔ st.getB c = none) ∧
    (∀ st : Store, (∃ e, finish st = Except.error e) ↔ st.tasks = none) ∧
    (∀ (st : Store) (key : Nat),
      (∃ e, getTask st key = Except.error e) ↔
        (st.tasks = none ∨ ∃ b, st.tasks = some b ∧ lookupEntries b.entries key = none)) ∧
    (∀ (st : Store) (id : Nat) (t : Task),
      (∃ e, updateTask st id t = Except.error e) ↔ st.tasks = none) := by
  refine ⟨?_, ?_, ?_, ?_, ?_, ?_, ?_, ?_⟩
  · intro ks st c
    cases hb : st.getB c with
    | none => simp [deleteKeys, hb]
    | some b => simp [deleteKeys, hb]
  · intro id st now
    cases hb : st.tasks with
    | none => simp [completeTask, hb]
    | some b =>
      cases hl : lookupEntries b.entries id with
      | none => simp [completeTask, hb, hl]
      | some t =>
        simp only [completeTask, hb, hl]
        constructor
        · intro h
          by_cases hc : t.status = STATUS.COMPLETE
          · rw [if_pos hc] at h; exact absurd h (by simp)
          · rw [if_neg hc] at h; exact absurd h (by simp)
        · rintro (h | ⟨b2, hb2, hl2⟩)
          · exact Option.noConfusion h
          · injection hb2 with hb3
            rw [← hb3] at hl2
            rw [hl] at hl2
            exact Option.noConfusion hl2
  · intro id st now b t hb hl hc
    simp only [completeTask, hb, hl, if_pos hc]
  · intro st c
    cases hb : st.getB c with
    | none => simp [getTasks, hb]
    | some b => simp [getTasks, hb]
  · intro k st c
    cases hb : st.getB c with
    | none =>
      constructor
      · intro _; rfl
      · intro _
        exact ⟨"Could not find the `" ++ collName c ++ "` bucket",
          by simp only [deleteKey, hb]⟩
    | some b =>
      constructor
      · rintro ⟨e, he⟩
        simp only [deleteKey, hb] at he
        exact Except.noConfusion he
      · intro h
        exact absurd h (by simp)
  · intro st
    cases hb : st.tasks with
    | none =>
      constructor
      · intro _; rfl
      · intro _
        exact ⟨"No tasks exist", by simp only [finish, hb]⟩
    | some b =>
      constructor
      · rintro ⟨e, he⟩
        simp only [finish, hb] at he
        exact Except.noConfusion he
      · intro h
        exact absurd h (by simp)
  · intro st key
    cases hb : st.tasks with
    | none =>
      constructor
      · intro _
        exact Or.inl rfl
      · intro _
        exact ⟨"Task bucket does not exist", by simp only [getTask, hb]⟩
    | some b =>
      cases hl : lookupEntries b.entries key with
      | none =>
        constructor
        · intro _
          exact Or.inr ⟨b, rfl, hl⟩
        · intro _
          exact ⟨"Key does not exist", by simp only [getTask, hb, hl]⟩
      | some t =>
        constructor
        · rintro ⟨e, he⟩
          simp only [getTask, hb, hl] at he
          exact Except.noConfusion he
        · rintro (h | ⟨b2, hb2, hl2⟩)
          · exact Option.noConfusion h
          · injection hb2 with hb3
            rw [← hb3] at hl2
            rw [hl] at hl2
            exact Option.noConfusion hl2
  · intro st id t
    cases hb : st.tasks with
    | none =>
      constructor
      · intro _; rfl
      · intro _
        exact ⟨"Tasks bucket does not exist", by simp only [updateTask, hb]⟩
    | some b =>
      constructor
      · rintro ⟨e, he⟩
        simp only [updateTask, hb] at he
        exact Except.noConfusion he
      · intro h
        exact absurd h (by simp)

/-- C6 witness: the already-complete silent no-op applied to a concrete
store whose task 1 is COMPLETE. -/
theorem core_ops_error_or_exit_witness :
    completeTask 1 c6Store "ts" = some c6Store :=
  core_ops_error_or_exit.2.2.1 1 c6Store "ts" c6Bucket
    (mkTask "x" "complete" "t" "n" "") rfl rfl rfl

/-! ## The completed-timestamp invariant (claim C7) -/

theorem taskWF_insert (d cr tg : String) : TaskWF (mkTask d STATUS.INCOMPLETE cr "" tg) := by
  constructor
  · intro h; exact absurd rfl h
  · intro h
    have h2 : STATUS.INCOMPLETE = STATUS.COMPLETE := h
    exact absurd h2 (by decide)

theorem mem_foldl_seqPut (vs : List Task) :
    ∀ (b : Bucket) (e : Nat × Task), e ∈ (vs.foldl seqPut b).entries → e.2 ∈ vs ∨ e ∈ b.entries := by
  induction vs with
  | nil => intro b e he; exact Or.inr he
  | cons v vs ih =>
    intro b e he
    rcases ih (seqPut b v) e he with h | h
    · exact Or.inl (List.mem_cons_of_mem v h)
    · rcases mem_putEntries b.entries (b.seq + 1) v e h with h2 | h2
      · rw [h2]
        exact Or.inl (List.mem_cons_self v vs)
      · exact Or.inr h2

theorem bucketWF_foldl_seqPut (vs : List Task) (b : Bucket) (hb : bucketWF b)
    (hvs : ∀ t ∈ vs, TaskWF t) : bucketWF (vs.foldl seqPut b) := by
  intro kv hkv
  rcases mem_foldl_seqPut vs b kv hkv with h | h
  · exact hvs kv.2 h
  · exact hb kv h

theorem bucketWF_renumber (b : Bucket) (hs : KeysSorted b.entries) (hp : KeysPos b.entries)
    (hw : bucketWF b) : bucketWF (renumberEntires b) := by
  rw [renumber_spec b hs hp]
  intro kv hkv
  obtain ⟨k, v⟩ := kv
  have h2 := (List.of_mem_zip hkv).2
  obtain ⟨e, he, heq⟩ := List.mem_map.mp h2
  have := hw e he
  rw [heq] at this
  exact this

theorem bucketWF_put (b : Bucket) (hw : bucketWF b) (k : Nat) (v : Task) (hv : TaskWF v) :
    bucketWF { entries := putEntries b.entries k v, seq := b.seq } := by
  intro kv hkv
  rcases mem_putEntries b.entries k v kv hkv with h | h
  · rw [h]; exact hv
  · exact hw kv h

theorem bucketWF_empty : bucketWF emptyBucket := by
  intro kv hkv
  exact absurd hkv (List.not_mem_nil kv)

theorem bucketWF_del (b : Bucket) (hw : bucketWF b) (k : Nat) :
    bucketWF { entries := delEntries b.entries k, seq := b.seq } := by
  intro kv hkv
  exact hw kv (List.mem_of_mem_filter hkv)

theorem storeWF_setB (st : Store) (hw : storeWF st) (c : Coll) (b : Bucket)
    (hb : bucketWF b) : storeWF (st.setB c (some b)) := by
  cases c
  · exact ⟨fun b2 hb2 => by injection hb2 with h; rw [← h]; exact hb, hw.2⟩
  · exact ⟨hw.1, fun b2 hb2 => by injection hb2 with h; rw [← h]; exact hb⟩

theorem storeWF_getB (st : Store) (hw : storeWF st) (c : Coll) (b : Bucket)
    (hb : st.getB c = some b) : bucketWF b := by
  cases c
  · exact hw.1 b hb
  · exact hw.2 b hb

theorem storeWF_applyOp (st : Store) (op : Op) (st' : Store)
    (h : applyOp st op = some st') (hg : goodStore st) (hw : storeWF st)
    (ht : opTimeOk op = true) : storeWF st' := by
  cases op with
  | insert c s tag now =>
    simp only [applyOp] at h
    injection h with h
    rw [← h]
    unfold insert
    obtain ⟨b, hb, hgood⟩ := goodStore_getB st hg c
    rw [hb]
    apply storeWF_setB st hw c
    apply bucketWF_put
    · intro kv hkv
      exact storeWF_getB st hw c b hb kv hkv
    · exact taskWF_insert s now tag
  | delete c k =>
    simp only [applyOp] at h
    cases hdk : deleteKey k st c with
    | error e => rw [hdk] at h; exact absurd h (by simp [Except.toOption])
    | ok a =>
      rw [hdk] at h
      simp only [Except.toOption, Option.some.injEq] at h
      rw [← h]
      obtain ⟨b, hb, hgood⟩ := goodStore_getB st hg c
      simp only [deleteKey, hb] at hdk
      injection hdk with hdk
      rw [← hdk]
      apply storeWF_setB st hw c
      apply bucketWF_renumber
      · exact keysSorted_del _ _ (goodBucket_keysSorted hgood)
      · exact keysPos_del _ _ (goodBucket_keysPos hgood)
      · exact bucketWF_del b (storeWF_getB st hw c b hb) k
  | deleteMany c ks =>
    simp only [applyOp] at h
    obtain ⟨b, hb, hgood⟩ := goodStore_getB st hg c
    simp only [deleteKeys, hb] at h
    injection h with h
    rw [← h]
    apply storeWF_setB st hw c
    have hvals : ∀ t ∈ (b.entries.filter (fun kv => !(ks.contains kv.1))).map Prod.snd,
        TaskWF t := by
      intro t hm
      obtain ⟨e, he, heq⟩ := List.mem_map.mp hm
      have := storeWF_getB st hw c b hb e (List.mem_of_mem_filter he)
      rw [heq] at this
      exact this
    have hnb := bucketWF_foldl_seqPut _ emptyBucket bucketWF_empty hvals
    have hgnb := (foldl_seqPut ((b.entries.filter (fun kv => !(ks.contains kv.1))).map Prod.snd)
      emptyBucket goodBucket_empty).1
    exact bucketWF_renumber _ (goodBucket_keysSorted hgnb) (goodBucket_keysPos hgnb) hnb
  | complete id now =>
    simp only [applyOp] at h
    obtain ⟨b, hb, hgood⟩ := hg.1
    simp only [completeTask, hb] at h
    cases hl : lookupEntries b.entries id with
    | none => simp only [hl] at h; exact Option.noConfusion h
    | some t =>
      simp only [hl] at h
      by_cases hc : t.status = STATUS.COMPLETE
      · rw [if_pos hc] at h
        injection h with h
        rw [← h]; exact hw
      · rw [if_neg hc] at h
        injection h with h
        rw [← h]
        constructor
        · intro b2 hb2
          injection hb2 with h2
          rw [← h2]
          apply bucketWF_put b (hw.1 b hb) id
          constructor
          · intro _; rfl
          · intro _
            have h5 : (now != "") = true := ht
            simpa using h5
        · exact hw.2
  | updateStatus id now =>
    simp only [applyOp] at h
    cases hu : updateCmdStatusFlip st id now with
    | error e => rw [hu] at h; exact absurd h (by simp [Except.toOption])
    | ok a =>
      rw [hu] at h
      simp only [Except.toOption, Option.some.injEq] at h
      rw [← h]
      obtain ⟨b, hb, hgood⟩ := hg.1
      simp only [updateCmdStatusFlip] at hu
      by_cases hid : id > getCount st .tasks ∨ id = 0
      · rw [if_pos hid] at hu; exact absurd hu (by simp)
      · rw [if_neg hid] at hu
        simp only [updateTask, hb] at hu
        injection hu with hu
        rw [← hu]
        constructor
        · intro b2 hb2
          injection hb2 with h2
          rw [← h2]
          apply bucketWF_put b (hw.1 b hb) id
          by_cases hc : (match getTask st id with
              | Except.ok t => t
              | Except.error _ =>
                { desc := "", status := "", created := "", completed := "", tag := "" }).status
              = STATUS.COMPLETE
          · rw [if_pos hc]
            constructor
            · intro h3; exact absurd rfl h3
            · intro h3
              have h4 : STATUS.INCOMPLETE = STATUS.COMPLETE := h3
              exact absurd h4 (by decide)
          · rw [if_neg hc]
            constructor
            · intro _; rfl
            · intro _
              have h5 : (now != "") = true := ht
              simpa using h5
        · exact hw.2
  | finishOp =>
    simp only [applyOp] at h
    cases hf : finish st with
    | error e => rw [hf] at h; exact absurd h (by simp [Except.toOption])
    | ok a =>
      rw [hf] at h
      simp only [Except.toOption, Option.some.injEq] at h
      rw [← h]
      obtain ⟨bt, hbt, hgt⟩ := hg.1
      obtain ⟨ba, hba, hga⟩ := hg.2
      simp only [finish, hbt, hba, Option.getD_some] at hf
      rw [finishFold] at hf
      simp only [List.nil_append] at hf
      injection hf with hf
      rw [← hf]
      have hkeep : ∀ t ∈ (bt.entries.filter
          (fun kv => decide (kv.2.status ≠ STATUS.COMPLETE))).map Prod.snd, TaskWF t := by
        intro t hm
        obtain ⟨e, he, heq⟩ := List.mem_map.mp hm
        have := hw.1 bt hbt e (List.mem_of_mem_filter he)
        rw [heq] at this
        exact this
      have hdone : ∀ t ∈ (bt.entries.filter
          (fun kv => decide (kv.2.status = STATUS.COMPLETE))).map Prod.snd, TaskWF t := by
        intro t hm
        obtain ⟨e, he, heq⟩ := List.mem_map.mp hm
        have := hw.1 bt hbt e (List.mem_of_mem_filter he)
        rw [heq] at this
        exact this
      constructor
      · intro b2 hb2
        injection hb2 with h2
        rw [← h2]
        exact bucketWF_foldl_seqPut _ emptyBucket bucketWF_empty hkeep
      · intro b2 hb2
        injection hb2 with h2
        rw [← h2]
        exact bucketWF_foldl_seqPut _ ba (hw.2 ba hba) hdone

theorem storeWF_init : storeWF initStore :=
  ⟨fun b hb => by injection hb with h; rw [← h]; exact bucketWF_empty,
   fun b hb => by injection hb with h; rw [← h]; exact bucketWF_empty⟩

theorem storeWF_applyOps (ops : List Op) :
    ∀ (st st' : Store), applyOps st ops = some st' → goodStore st → storeWF st →
      (∀ op ∈ ops, opTimeOk op = true) → storeWF st' := by
  induction ops with
  | nil =>
    intro st st' h hg hw _
    simp only [applyOps] at h
    injection h with h
    rw [← h]; exact hw
  | cons op ops ih =>
    intro st st' h hg hw ht
    simp only [applyOps] at h
    cases ha : applyOp st op with
    | none => simp only [ha] at h; exact Option.noConfusion h
    | some st1 =>
      simp only [ha] at h
      exact ih st1 st' h (goodStore_applyOp st op st1 ha hg)
        (storeWF_applyOp st op st1 ha hg hw (ht op (List.mem_cons_self op ops)))
        (fun o ho => ht o (List.mem_cons_of_mem op ho))

/-- C7: in every store reachable through the core operations (with the
non-empty timestamps `time.Now` produces), every stored task has a
non-empty `Completed` field exactly when its status is COMPLETE: insert
establishes the invariant, completeTask sets status and timestamp
together, the status-flip update clears the timestamp when flipping to
INCOMPLETE and sets it when flipping to COMPLETE, and the other operations
only move existing tasks. -/
theorem completed_iff_status (ops : List Op) (st : Store)
    (ht : ∀ op ∈ ops, opTimeOk op = true)
    (h : applyOps initStore ops = some st) : storeWF st :=
  storeWF_applyOps ops initStore st h goodStore_init storeWF_init ht

/-- C7 witness: the invariant at the store reached by an insert followed by
a completeTask. -/
theorem completed_iff_status_witness :
    (∀ op ∈ c7Ops, opTimeOk op = true) ∧ storeWF c7Result :=
  ⟨by decide, completed_iff_status c7Ops c7Result (by decide) (by decide)⟩

/-! ## Tag filtering (claims C8 and C10) -/

/-- C8 counterexample: with `include = {"none"}` the function does not
return exactly the tasks whose tag is empty — a task whose tag is the
literal string "none" is also returned (and with `exclude = {"none"}` that
task is dropped although its tag is non-empty). -/
theorem filterTasks_none_literal_counterexample :
    filterTasks [c8NoneTask] ["none"] [] = [c8NoneTask] ∧
    c8NoneTask.task.tag ≠ "" ∧
    List.filter (fun t => t.task.tag == "") [c8NoneTask] = [] ∧
    filterTasks [c8NoneTask] [] ["none"] = [] := by
  refine ⟨by decide, by decide, by decide, by decide⟩

theorem includePass_filter_none (tp : List TaskPosition) :
    includePass ["none"] true tp
      = tp.filter (fun t => t.task.tag == "" || t.task.tag == "none") := by
  induction tp with
  | nil => rfl
  | cons t rest ih =>
    rw [List.filter_cons]
    by_cases h1 : t.task.tag = ""
    · simp [includePass, h1, ih]
    · by_cases h2 : t.task.tag = "none"
      · simp [includePass, h1, h2, ih]
      · simp [includePass, h1, h2, ih]

/-- C8 amended: with both sets empty `filterTasks` returns its input; with
`include = {"none"}` it returns exactly the tasks whose tag is empty OR the
literal string "none", in input order; with `exclude = {"none"}` it returns
exactly the tasks whose tag is neither empty nor the literal "none", in
input order; and when `include` is non-empty the result is the include pass
applied to the result of the exclude pass (exclude runs first). -/
theorem filterTasks_spec :
    (∀ tp : List TaskPosition, filterTasks tp [] [] = tp) ∧
    (∀ tp : List TaskPosition, filterTasks tp ["none"] []
      = tp.filter (fun t => t.task.tag == "" || t.task.tag == "none")) ∧
    (∀ tp : List TaskPosition, filterTasks tp [] ["none"]
      = tp.filter (fun t => !(t.task.tag == "" || t.task.tag == "none"))) ∧
    (∀ (tp : List TaskPosition) (inc exc : List String), inc ≠ [] →
      filterTasks tp inc exc = filterTasks (filterTasks tp [] exc) inc []) := by
  refine ⟨?_, ?_, ?_, ?_⟩
  · intro tp
    simp [filterTasks]
  · intro tp
    rw [filterTasks]
    rw [if_neg (by simp)]
    simp only [List.length_singleton, gt_iff_lt, Nat.zero_lt_one, if_true]
    rw [show (([] : List String).contains "none") = false from rfl]
    rw [show ((["none"] : List String).contains "none") = true from rfl]
    rw [List.filter_congr (fun t _ => by simp : ∀ t ∈ tp,
      ((!(([] : List String).contains t.task.tag) && !(t.task.tag == "" && false))) = true)]
    rw [List.filter_true]
    exact includePass_filter_none tp
  · intro tp
    rw [filterTasks]
    rw [if_neg (by simp)]
    simp only [List.length_nil, gt_iff_lt, Nat.lt_irrefl, if_false]
    rw [show ((["none"] : List String).contains "none") = true from rfl]
    apply List.filter_congr
    intro t _
    by_cases h1 : t.task.tag = ""
    · simp [h1]
    · by_cases h2 : t.task.tag = "none"
      · simp [h1, h2]
      · simp [h1, h2]
  · intro tp inc exc hinc
    have hpos : 0 < inc.length := by
      cases inc with
      | nil => exact absurd rfl hinc
      | cons a l => simp
    have hnb : ¬ (inc.length = 0 ∧ exc.length = 0) := by
      intro h; omega
    rw [filterTasks, if_neg hnb]
    simp only [gt_iff_lt]
    rw [if_pos hpos]
    by_cases hexc : exc = []
    · subst hexc
      rw [show filterTasks tp ([] : List String) ([] : List String) = tp from by
        simp [filterTasks]]
      rw [filterTasks, if_neg hnb]
      simp only [gt_iff_lt]
      rw [if_pos hpos]
    · have hnb2 : ¬ (([] : List String).length = 0 ∧ exc.length = 0) := by
        intro h
        exact hexc (List.length_eq_zero.mp h.2)
      rw [show filterTasks tp ([] : List String) exc = tp.filter (fun t =>
          !(exc.contains t.task.tag) && !(t.task.tag == "" && exc.contains "none")) from by
        rw [filterTasks, if_neg hnb2]
        simp only [List.length_nil, gt_iff_lt]
        rw [if_neg (by omega)]]
      rw [filterTasks]
      rw [if_neg (by intro h; omega)]
      simp only [gt_iff_lt]
      rw [if_pos hpos]
      rw [show (([] : List String).contains "none") = false from rfl]
      rw [List.filter_congr (fun t _ => by simp : ∀ t ∈ tp.filter (fun t =>
          !(exc.contains t.task.tag) && !(t.task.tag == "" && exc.contains "none")),
        ((!(([] : List String).contains t.task.tag) && !(t.task.tag == "" && false))) = true)]
      rw [List.filter_true]

/-- C8 witness: the three filter characterizations applied to a concrete
two-task list (one empty tag, one "none" tag). -/
theorem filterTasks_spec_witness :
    filterTasks [c10Task, c8NoneTask] [] [] = [c10Task, c8NoneTask] ∧
    filterTasks [c10Task, c8NoneTask] ["none"] []
      = List.filter (fun t => t.task.tag == "" || t.task.tag == "none")
          [c10Task, c8NoneTask] ∧
    filterTasks [c10Task, c8NoneTask] [] ["none"]
      = List.filter (fun t => !(t.task.tag == "" || t.task.tag == "none"))
          [c10Task, c8NoneTask] ∧
    filterTasks [c10Task] ["work"] ["none"]
      = filterTasks (filterTasks [c10Task] [] ["none"]) ["work"] [] :=
  ⟨filterTasks_spec.1 [c10Task, c8NoneTask],
   filterTasks_spec.2.1 [c10Task, c8NoneTask],
   filterTasks_spec.2.2.1 [c10Task, c8NoneTask],
   filterTasks_spec.2.2.2 [c10Task] ["work"] ["none"] (by decide)⟩

theorem includePass_count_ge_two (inc : List String) (t : TaskPosition)
    (h2 : "" ∈ inc) (h3 : t.task.tag = "") :
    ∀ l : List TaskPosition, t ∈ l → 2 ≤ (includePass inc true l).count t := by
  intro l
  induction l with
  | nil => intro h; exact absurd h (List.not_mem_nil t)
  | cons x rest ih =>
    intro hm
    rw [includePass]
    rcases List.mem_cons.mp hm with h | h
    · subst h
      rw [if_pos (by simp [h3]), if_pos (by rw [h3]; exact List.elem_eq_true_of_mem h2)]
      rw [List.count_append, List.count_append]
      have hone : ([t] : List TaskPosition).count t = 1 := by simp
      omega
    · have hrec := ih h
      rw [List.count_append, List.count_append]
      omega

/-- C10: when the include set contains both "none" and the empty string,
an empty-tagged task that survives the exclude pass is appended twice (once
by each of the two independent `if`s in the include loop), so `filterTasks`
returns it twice and its output is not a subsequence of its input. -/
theorem filterTasks_duplicate (inc exc : List String) (tp : List TaskPosition)
    (t : TaskPosition) (h1 : "none" ∈ inc) (h2 : "" ∈ inc) (h3 : t.task.tag = "")
    (h4 : "" ∉ exc) (h5 : "none" ∉ exc) (h6 : t ∈ tp) :
    2 ≤ (filterTasks tp inc exc).count t ∧
    ¬ ∀ (l : List TaskPosition) (i e : List String), (filterTasks l i e).Sublist l := by
  have hinc : inc ≠ [] := by
    intro h; rw [h] at h1; exact absurd h1 (List.not_mem_nil _)
  have hlen : ¬ inc.length = 0 := by
    intro h; exact hinc (List.length_eq_zero.mp h)
  have hcontains : inc.contains "none" = true := List.elem_eq_true_of_mem h1
  have hmain : ∀ tp2 : List TaskPosition, t ∈ tp2 →
      2 ≤ (filterTasks tp2 inc exc).count t := by
    intro tp2 hm
    rw [filterTasks, if_neg (by intro h; exact hlen h.1)]
    simp only [gt_iff_lt]
    rw [if_pos (by omega), hcontains]
    apply includePass_count_ge_two inc t h2 h3
    rw [List.mem_filter]
    refine ⟨hm, ?_⟩
    have hc1 : exc.contains t.task.tag = false := by
      rw [h3]
      by_cases hc : exc.contains "" = true
      · exact absurd (List.mem_of_elem_eq_true hc) h4
      · simpa using hc
    have hc2 : exc.contains "none" = false := by
      by_cases hc : exc.contains "none" = true
      · exact absurd (List.mem_of_elem_eq_true hc) h5
      · simpa using hc
    rw [hc1, hc2, h3]
    rfl
  refine ⟨hmain tp h6, ?_⟩
  intro hall
  have hsub := hall [t] inc exc
  have hcount := hmain [t] (List.mem_cons_self t [])
  have hle := hsub.count_le t
  have hone : ([t] : List TaskPosition).count t = 1 := by simp
  omega

/-- C10 witness: the duplication at a concrete empty-tagged task with
include set {"none", ""}. -/
theorem filterTasks_duplicate_witness :
    2 ≤ (filterTasks [c10Task] ["none", ""] []).count c10Task ∧
    ¬ ∀ (l : List TaskPosition) (i e : List String), (filterTasks l i e).Sublist l :=
  filterTasks_duplicate ["none", ""] [] [c10Task] c10Task (by decide) (by decide) rfl
    (by decide) (by decide) (by decide)

/-! ## The tag parser (claim C3) -/

/-- C3: evaluations of `parseTags`.  The claim's two example sentences hold
("a +middle c" and "d  +middle e" consume at most the one space directly
before the token), and the examples from the repository's own test suite
hold as well.  But the universal removal property fails at "+b a +b": both
matches are reported as tags, yet the returned rest "+b a" still contains
the first matched token.  The removal loop checks
`strings.Contains(s, " "+m[0])` against the ORIGINAL input and then cuts
the FIRST occurrence of `" "+m[0]` out of the evolving string, so for the
first match (which has no preceding space) it removes the second match's
space-prefixed occurrence instead, and the second iteration then finds
nothing to remove. -/
theorem parseTags_eval :
    parseTags "a +middle c" = (["middle"], "a c") ∧
    parseTags "d  +middle e" = (["middle"], "d  e") ∧
    parseTags "no tag" = ([], "no tag") ∧
    parseTags "+start house" = (["start"], "house") ∧
    parseTags "+shop milk eggs + stuff" = (["shop"], "milk eggs + stuff") ∧
    parseTags "+b a +b" = (["b", "b"], "+b a") ∧
    containsSub "+b a".data ('+' :: "b".data) = true := by
  refine ⟨by decide, by decide, by decide, by decide, by decide, by decide, by decide⟩

end TaskCLI
